import Mathlib

/-!
# Verification of dab-mechanic

A shallow embedding, in Lean 4, of the core logic of the `dab-mechanic`
repository (files `web_view.py` and `dab_mechanic/wikipedia.py`), together
with theorems settling the frozen claims about the natural-language
specification of that code.

Embedding conventions:
* Python strings are `String` / `List Char`.
* Python `re.sub` with the pattern built by `apply_edits`'s `escape` helper is
  modelled by a left-to-right, non-overlapping scan (`subAll`): `re.escape`
  leaves every character literal except that the code then turns each space
  or underscore of the link title into the character class `[ _]`.  The
  replacement string is spliced literally; this is faithful as long as the
  replacement contains no backslash (Python would interpret template escapes
  there), which the theorems assume via explicit hypotheses where needed.
* Fallible Python code (KeyError / IndexError / assert) is modelled with
  `Option`: `none` is the raised exception.
* The lxml HTML tree is modelled by the mutually inductive `Html`/`HtmlList`;
  `findall(".//…")` is a preorder traversal of the strict descendants;
  `e.get`/`e.set` are association-list attribute lookup and update (update
  keeps the position of an existing key and appends a fresh key, as lxml
  does); serialisation is a plain tag/attribute printer.
* Network fetches (`get_article_html`) are passed in as explicit function
  parameters, so the pure logic around them can be stated and proved.
-/
/-! ## `apply_edits` (web_view.py lines 236-250)

```python
def apply_edits(article_text: str, edits: list[tuple[str, str]]) -> str:
    def escape(s: str) -> str:
        return re.escape(s).replace("_", "[ _]").replace(r"\ ", "[ _]")
    for link_from, link_to in edits:
        article_text = re.sub(
            rf"\[\[{escape(link_from)}\]\]",
            f"[[{link_to}|{link_from}]]",
            article_text,
        )
    return article_text
```
-/
/-- One character of the compiled pattern against one character of the text:
a space or underscore in the link title matches either a space or an
underscore (the `[ _]` character class built by `escape`); every other
character matches only itself (it is `re.escape`d). -/
def chMatch (p c : Char) : Bool :=
  if p = ' ' || p = '_' then c = ' ' || c = '_' else c = p

/-- Match a pattern (list of pattern characters, interpreted by `chMatch`)
against a prefix of the text; on success return the remaining text. -/
def matchPat : List Char → List Char → Option (List Char)
  | [], s => some s
  | _ :: _, [] => none
  | p :: ps, c :: cs => if chMatch p c then matchPat ps cs else none

/-- The full pattern `\[\[{escape(link_from)}\]\]` for one edit. -/
def pat (linkFrom : List Char) : List Char :=
  '[' :: '[' :: (linkFrom ++ [']', ']'])

/-- The replacement text `[[{link_to}|{link_from}]]` for one edit. -/
def repl (linkFrom linkTo : List Char) : List Char :=
  '[' :: '[' :: (linkTo ++ '|' :: (linkFrom ++ [']', ']']))

/-- One fuel step of the `re.sub` scan: at each position, if the pattern
matches, emit the replacement and continue after the matched span, else copy
one character.  Fuel at least the text length is always enough, because each
step consumes at least one character. -/
def subAllF (lf lt : List Char) : Nat → List Char → List Char
  | _, [] => []
  | 0, s => s
  | fuel + 1, c :: cs =>
    match matchPat (pat lf) (c :: cs) with
    | some rest => repl lf lt ++ subAllF lf lt fuel rest
    | none => c :: subAllF lf lt fuel cs

/-- Python `re.sub(pattern, replacement, text)`: replace every non-overlapping
occurrence, scanning left to right. -/
def subAll (lf lt : List Char) (s : List Char) : List Char :=
  subAllF lf lt s.length s

/-- The loop of `apply_edits`, at the character-list level. -/
def applyEditsL (text : List Char) (edits : List (String × String)) : List Char :=
  edits.foldl (fun t e => subAll e.1.toList e.2.toList t) text

/-- The function `apply_edits` from web_view.py: fold the substitution over the edit list.
An edit is a pair whose first component is `link_from` (the title as it
appears in the article markup) and whose second component is `link_to` (the
chosen replacement title), exactly as `apply_edits` unpacks its tuples. -/
def apply_edits (article_text : String) (edits : List (String × String)) : String :=
  String.mk (applyEditsL article_text.toList edits)

/-- Componentwise `chMatch` of two equal-length strings: this is exactly when
the compiled pattern for `lf` accepts the text `t`. -/
def listMatch : List Char → List Char → Bool
  | [], [] => true
  | p :: ps, c :: cs => chMatch p c && listMatch ps cs
  | _, _ => false

/-- Space and underscore are interchangeable; everything else is itself. -/
def normChar (c : Char) : Char := if c = '_' then ' ' else c

/-! ### Wikitext as a sequence of pieces

To reason about which parts of an article `apply_edits` can touch, we view a
wikitext as a concatenation of pieces: raw text, unpiped wikilinks
`[[target]]` and piped wikilinks `[[target|display]]`.  The goodness
conditions below say that the pieces are honest wikilinks: no stray square
brackets inside titles, display texts or raw text, and no pipe inside a
title.  On such texts the substitution performed by `apply_edits` acts
piecewise. -/
inductive Piece where
  | raw (s : List Char)
  | unpiped (t : List Char)
  | piped (t d : List Char)
deriving DecidableEq

def Piece.render : Piece → List Char
  | .raw s => s
  | .unpiped t => '[' :: '[' :: (t ++ [']', ']'])
  | .piped t d => '[' :: '[' :: (t ++ '|' :: (d ++ [']', ']']))

def renderPieces (ps : List Piece) : List Char :=
  (ps.map Piece.render).flatten

/-- The effect of one edit `(lf, lt)` on one piece: an unpiped wikilink whose
target matches `lf` (spaces and underscores interchangeable) becomes the
piped wikilink `[[lt|lf]]` with the display text frozen to the `link_from`
spelling of the edit; everything else is untouched. -/
def editPiece (lf lt : List Char) : Piece → Piece
  | .unpiped t => if listMatch lf t then .piped lt lf else .unpiped t
  | p => p

def noBracket (s : List Char) : Prop := '[' ∉ s ∧ ']' ∉ s

def goodPiece : Piece → Prop
  | .raw s => noBracket s
  | .unpiped t => noBracket t
  | .piped t d => noBracket t ∧ noBracket d

/-- Goodness of an edit's `link_from`/`link_to` pair: the title being matched
contains no brackets and no pipe, the chosen title contains no brackets, and
neither string contains a backslash (so that the Python replacement template
`[[{link_to}|{link_from}]]` is the literal text it looks like). -/
def goodEdit (e : String × String) : Prop :=
  noBracket e.1.toList ∧ '|' ∉ e.1.toList ∧ noBracket e.2.toList ∧
    '\\' ∉ e.1.toList ∧ '\\' ∉ e.2.toList

/-- No match of the pattern for `lf` begins at any position of `u` when the
text continues with `v`. -/
def noMatchIn (lf : List Char) : List Char → List Char → Prop
  | [], _ => True
  | c :: cs, v => matchPat (pat lf) (c :: (cs ++ v)) = none ∧ noMatchIn lf cs v

/-- The combined effect of a whole edit list on one piece. -/
def editAll (edits : List (String × String)) (p : Piece) : Piece :=
  edits.foldl (fun q e => editPiece e.1.toList e.2.toList q) p

/-- Does the pattern for `lf` match anywhere in the text? -/
def hasMatchIn (lf : List Char) : List Char → Bool
  | [] => false
  | c :: cs => (matchPat (pat lf) (c :: cs)).isSome || hasMatchIn lf cs

/-- Substring test (used to state counterexamples about texts). -/
def containsSub (w : List Char) : List Char → Bool
  | [] => w.isEmpty
  | c :: cs => w.isPrefixOf (c :: cs) || containsSub w cs

/-- A piece that none of the edits names: an unpiped wikilink whose target
matches no edit's `link_from`, or any raw/piped piece. -/
def untouched (edits : List (String × String)) : Piece → Prop
  | .unpiped t => ∀ e ∈ edits, listMatch e.1.toList t = false
  | _ => True

/-! ## The edit summary (web_view.py lines 231-233 and 253-268)

```python
def make_disamb_link(edit: tuple[str, str]) -> str:
    return f"[[{edit[1]}|{edit[0]}]]"

    titles = ", ".join(make_disamb_link(edit) for edit in edits[:-1])
    if len(titles) > 1:
        titles += " and "
    titles += make_disamb_link(edits[-1])
    edit_summary = f"Disambiguate {titles} using [[User:Edward/Dab mechanic]]"
```
-/
/-- The function `make_disamb_link` from web_view.py: an edit `(link_from, link_to)` is
rendered as the wikilink `[[link_to|link_from]]` (chosen title as target,
original article link target as display). -/
def make_disamb_link (edit : String × String) : String :=
  "[[" ++ edit.2 ++ "|" ++ edit.1 ++ "]]"

/-- Python's `sep.join(xs)`. -/
def joinSep (sep : String) : List String → String
  | [] => ""
  | [x] => x
  | x :: xs => x ++ sep ++ joinSep sep xs

/-- The edit-summary construction inside `save` of web_view.py, on the edit
list.  `none` models the `IndexError` that `edits[-1]` raises on an empty
list. -/
def save_summary (edits : List (String × String)) : Option String :=
  match edits.getLast? with
  | none => none
  | some last =>
    let titles := joinSep ", " ((edits.dropLast).map make_disamb_link)
    let titles := if titles.length > 1 then titles ++ " and " else titles
    let titles := titles ++ make_disamb_link last
    some ("Disambiguate " ++ titles ++ " using [[User:Edward/Dab mechanic]]")

/-! ## Link discovery (dab_mechanic/wikipedia.py lines 45-101)

`get_article_links` pages through the MediaWiki query API.  Each response
batch carries a list of pages (title plus the list of matching
disambiguation-marker templates, the `templates` key being absent when no
marker matched), a side list of redirects, and possibly a continuation
token.  The loop accumulates titles passing `needs_disambig` into a set and
all redirect pairs into `redirects`; after pagination it adds, for every
accumulated title, all titles redirecting to it.  The Python `set` is
modelled as an insertion-ordered duplicate-free list: the claims are about
membership only. -/
/-- A page object of a link-discovery response.  `templates = none` models a
response page with no `templates` key at all. -/
structure ApiPage where
  title : String
  templates : Option (List String)
deriving DecidableEq

/-- One response batch: `redirects` is the list of `(from, to)` pairs of the
response's redirect side list, `hasContinue` whether a continuation token is
present. -/
structure ApiBatch where
  pages : List ApiPage
  redirects : List (String × String)
  hasContinue : Bool
deriving DecidableEq

/-- Python's `str.endswith`, on character lists. -/
def strEndsWith (s suffixStr : String) : Bool :=
  suffixStr.toList.isSuffixOf s.toList

/-- The function `needs_disambig` from dab_mechanic/wikipedia.py:
`bool(not link["title"].endswith(" (disambiguation)") and link.get("templates"))`.
A missing `templates` key (`none`) and an empty template list are both
falsy. -/
def needs_disambig (link : ApiPage) : Bool :=
  !(strEndsWith link.title " (disambiguation)") &&
    (match link.templates with
     | none => false
     | some ts => !ts.isEmpty)

/-- Adding to a Python set, as insertion into a duplicate-free list. -/
def insertNew (s : List String) (x : String) : List String :=
  if x ∈ s then s else s ++ [x]

/-- Updating a Python set with several elements. -/
def updateSet (s : List String) (xs : List String) : List String :=
  xs.foldl insertNew s

/-- The pagination loop of `get_article_links`: process one batch, stop when
the response carries no continuation token (or when the modelled response
sequence is exhausted).  Returns the accumulated link set and the
accumulated redirect pairs. -/
def runBatches : List String → List (String × String) → List ApiBatch →
    List String × List (String × String)
  | links, reds, [] => (links, reds)
  | links, reds, b :: rest =>
    let links' := updateSet links ((b.pages.filter (fun p => needs_disambig p)).map (·.title))
    let reds' := reds ++ b.redirects
    if b.hasContinue then runBatches links' reds' rest else (links', reds')

/-- The function `get_article_links` from dab_mechanic/wikipedia.py, as a function of the
response batches: pagination followed by the one-step redirect closure
`for link in set(links): if link in redirects: links.update(redirects[link])`. -/
def get_article_links (batches : List ApiBatch) : List String :=
  let acc := runBatches [] [] batches
  acc.1.foldl (fun links l =>
    updateSet links ((acc.2.filter (fun r => r.2 == l)).map (·.1))) acc.1

/-! ## Annotation of article anchors (`Article.process_links`)

The repository contains two variants of `Article`:

* `web_view.py` lines 313-340: `iter_links` keeps a `seen` set, sets the
  CSS class on *every* qualifying anchor but yields only the first anchor of
  each title; `process_links` enumerates the yielded anchors, so sequence
  numbers count distinct titles, and only first anchors receive an id.  The
  preview is fetched once per DabItem (hence once per distinct title).
* `dab_mechanic/wikipedia.py` lines 174-198: `iter_links` yields every
  qualifying anchor; `process_links` numbers each anchor occurrence, gives
  each its own class and id, records one DabItem per occurrence, and
  memoizes the raw preview HTML per title in `self.dab_html`.

Anchors are modelled by their four relevant attributes, in the document
order produced by `findall(".//a[@href]")`; the network fetch
(`get_article_html`) and the preview renderer (`get_dab_html`) are explicit
function parameters.  Each variant returns the rewritten anchors, the
`dab_list`, and the list of titles fetched from the network (in fetch
order). -/
structure Anchor where
  href : Option String
  title : Option String
  cls : Option String
  idAttr : Option String
deriving DecidableEq

structure DabItem where
  num : Nat
  title : String
  html : String
deriving DecidableEq

/-- Tagging one anchor: `a.set("class", "disambig"); a.set("id", f"dab-\x7bn\x7d")`. -/
def markAnchor (a : Anchor) (n : Nat) : Anchor :=
  { a with cls := some "disambig", idAttr := some ("dab-" ++ Nat.repr n) }

/-- The title under which an anchor qualifies: the anchor was produced by
`findall(".//a[@href]")` (so it has an `href`), its `title` attribute is
present and belongs to the candidate link set. -/
def anchorTitle (links : List String) (a : Anchor) : Option String :=
  if a.href.isSome then
    match a.title with
    | some t => if t ∈ links then some t else none
    | none => none
  else none

/-- Qualifying titles in document order (with repetitions). -/
def dabTitles (links : List String) (anchors : List Anchor) : List String :=
  anchors.filterMap (anchorTitle links)

/-- The `(class, id)` attributes of the qualifying anchors, in document
order. -/
def dabTags (links : List String) (anchors : List Anchor) :
    List (Option String × Option String) :=
  anchors.filterMap (fun a => (anchorTitle links a).map (fun _ => (a.cls, a.idAttr)))

/-- First occurrences of a title list that are not yet in `seen`, in order. -/
def newFirsts (seen : List String) : List String → List String
  | [] => []
  | t :: ts => if t ∈ seen then newFirsts seen ts else t :: newFirsts (seen ++ [t]) ts

/-- The method `Article.process_links` of dab_mechanic/wikipedia.py.  State: next
sequence number `n` and the `dab_html` cache.  Every qualifying anchor gets
the class and its own id `dab-{n}`; one DabItem is appended per anchor
occurrence; the raw HTML of a title is fetched only on cache miss. -/
def wpProcess (render : Nat → String → String) (fetch : String → String)
    (links : List String) :
    Nat → List (String × String) → List Anchor →
      List Anchor × List DabItem × List String
  | _, _, [] => ([], [], [])
  | n, cache, a :: rest =>
    match anchorTitle links a with
    | none =>
      let r := wpProcess render fetch links n cache rest
      (a :: r.1, r.2.1, r.2.2)
    | some t =>
      let a' := markAnchor a n
      match cache.find? (fun p => p.1 == t) with
      | some p =>
        let r := wpProcess render fetch links (n + 1) cache rest
        (a' :: r.1, ⟨n, t, render n p.2⟩ :: r.2.1, r.2.2)
      | none =>
        let raw := fetch t
        let r := wpProcess render fetch links (n + 1) (cache ++ [(t, raw)]) rest
        (a' :: r.1, ⟨n, t, render n raw⟩ :: r.2.1, t :: r.2.2)

/-- The method `Article.process_links` of web_view.py.  State: next sequence number `n`
and the `seen` set of `iter_links`.  Every qualifying anchor gets the class;
only the first anchor of each title gets an id and a DabItem, whose preview
is fetched at that moment. -/
def wvProcess (render : Nat → String → String) (fetch : String → String)
    (links : List String) :
    Nat → List String → List Anchor → List Anchor × List DabItem × List String
  | _, _, [] => ([], [], [])
  | n, seen, a :: rest =>
    match anchorTitle links a with
    | none =>
      let r := wvProcess render fetch links n seen rest
      (a :: r.1, r.2.1, r.2.2)
    | some t =>
      if t ∈ seen then
        let r := wvProcess render fetch links n seen rest
        ({ a with cls := some "disambig" } :: r.1, r.2.1, r.2.2)
      else
        let r := wvProcess render fetch links (n + 1) (seen ++ [t]) rest
        (markAnchor a n :: r.1, ⟨n, t, render n (fetch t)⟩ :: r.2.1, t :: r.2.2)

/-- Entry point: a fresh `Article` starts with `dab_num = 0` and an empty
cache. -/
def wp_process_links (render : Nat → String → String) (fetch : String → String)
    (links : List String) (anchors : List Anchor) :
    List Anchor × List DabItem × List String :=
  wpProcess render fetch links 0 [] anchors

/-- Entry point: web_view.py starts with `dab_num = 0` and an empty `seen`. -/
def wv_process_links (render : Nat → String → String) (fetch : String → String)
    (links : List String) (anchors : List Anchor) :
    List Anchor × List DabItem × List String :=
  wvProcess render fetch links 0 [] anchors

/-! ## Preview rendering (`get_dab_html`, dab_mechanic/wikipedia.py lines 124-146)

```python
def get_dab_html(dab_num: int, html: str) -> str:
    root = lxml.html.fromstring(html)
    delete_toc(root)
    element_id_map = {e.get("id"): e for e in root.findall(".//*[@id]")}
    for a in root.findall(".//a[@href]"):
        href = a.get("href")
        if not href:
            continue
        if not href.startswith("#"):
            a.set("href", "#")
            a.set("onclick", f"return select_dab(this, {dab_num})")
            continue
        destination_element = element_id_map[href[1:]]
        assert destination_element is not None
        destination_element.set("id", f"{dab_num}{href[1:]}")
        a.set("href", f"#{dab_num}{href[1:]}")
    html = lxml.html.tostring(root, encoding=str)
    return html
```

The already-parsed tree is the input (the `web_view.py` copy differs only in
fetching the HTML itself first).  `findall(".//…")` enumerates the strict
descendants of the root in document (preorder) order; the dict comprehension
keeps, for each id value, the *last* element carrying it; a `KeyError` on a
missing fragment target is the `none` result.  Since every anchor is visited
once, its `href` is read before any anchor mutation can touch it, and a
rewritten target id is always rewritten to the same value, the loop is
equivalent to collecting all updates first and applying them by descendant
index. -/
mutual
inductive Html where
  | el (tag : String) (attrs : List (String × String)) (children : HtmlList)
inductive HtmlList where
  | nil
  | cons (head : Html) (tail : HtmlList)
end

/-- Attribute read `e.get(k)` of lxml: the attribute value, or `none`. -/
def attrGet (attrs : List (String × String)) (k : String) : Option String :=
  (attrs.find? (fun p => p.1 == k)).map (·.2)

/-- Attribute write `e.set(k, v)` of lxml: overwrite in place, or append a fresh key. -/
def setAttr (attrs : List (String × String)) (k v : String) : List (String × String) :=
  if (attrs.find? (fun p => p.1 == k)).isSome then
    attrs.map (fun p => if p.1 == k then (k, v) else p)
  else attrs ++ [(k, v)]

def tagOf : Html → String
  | .el t _ _ => t

def attrsOf : Html → List (String × String)
  | .el _ a _ => a

/-- Is this element a `div` with `class` exactly `toc`? -/
def isToc (h : Html) : Bool :=
  tagOf h == "div" && attrGet (attrsOf h) "class" == some "toc"

mutual
/-- The function `delete_toc`: remove every descendant toc-classed div subtree. -/
def stripToc : Html → Html
  | .el t a c => .el t a (stripTocL c)
def stripTocL : HtmlList → HtmlList
  | .nil => .nil
  | .cons h rest =>
    if isToc h then stripTocL rest else .cons (stripToc h) (stripTocL rest)
end

mutual
/-- Preorder traversal: the node followed by its descendants. -/
def preordH : Html → List Html
  | .el t a c => .el t a c :: preordL c
def preordL : HtmlList → List Html
  | .nil => []
  | .cons h rest => preordH h ++ preordL rest
end

/-- Traversal `root.findall(".//*")`: the strict descendants in document order. -/
def descendants : Html → List Html
  | .el _ _ c => preordL c

mutual
def sizeH : Html → Nat
  | .el _ _ c => 1 + sizeL c
def sizeL : HtmlList → Nat
  | .nil => 0
  | .cons h rest => sizeH h + sizeL rest
end

mutual
/-- Rewrite the attribute list of every node, where the rewriting function
receives the node's preorder index (the root's first child having index
`i`). -/
def updH (f : Nat → List (String × String) → List (String × String)) :
    Nat → Html → Html
  | i, .el t a c => .el t (f i a) (updL f (i + 1) c)
def updL (f : Nat → List (String × String) → List (String × String)) :
    Nat → HtmlList → HtmlList
  | _, .nil => .nil
  | i, .cons h rest => .cons (updH f i h) (updL f (i + sizeH h) rest)
end

def serializeAttrs : List (String × String) → String
  | [] => ""
  | (k, v) :: rest => " " ++ k ++ "=\"" ++ v ++ "\"" ++ serializeAttrs rest

mutual
/-- Serialisation `lxml.html.tostring`, as a plain tag/attribute printer. -/
def serializeH : Html → String
  | .el t a c => "<" ++ t ++ serializeAttrs a ++ ">" ++ serializeL c ++ "</" ++ t ++ ">"
def serializeL : HtmlList → String
  | .nil => ""
  | .cons h rest => serializeH h ++ serializeL rest
end

/-- The dict comprehension building element_id_map, keyed by id value,
carrying the descendant's preorder index; later entries shadow earlier ones,
which `idLookup` honours by searching the reversed list. -/
def idEntries (root : Html) : List (String × Nat) :=
  (descendants root).enum.filterMap
    (fun p => (attrGet (attrsOf p.2) "id").map (fun v => (v, p.1)))

def idLookup (entries : List (String × Nat)) (x : String) : Option Nat :=
  (entries.reverse.find? (fun e => e.1 == x)).map (·.2)

/-- Traversal `root.findall(".//a[@href]")`: preorder index and `href` value of every
descendant anchor carrying an `href` attribute. -/
def anchorEntries (root : Html) : List (Nat × String) :=
  (descendants root).enum.filterMap
    (fun p =>
      if tagOf p.2 == "a" then (attrGet (attrsOf p.2) "href").map (fun h => (p.1, h))
      else none)

/-- The test `href.startswith("#")`. -/
def isFragment (h : String) : Bool :=
  match h.toList with
  | '#' :: _ => true
  | _ => false

/-- The slice `href[1:]`. -/
def fragId (h : String) : String :=
  String.mk (h.toList.drop 1)

/-- The anchor loop of `get_dab_html`.  Returns the href/onclick updates and
the id updates, both keyed by descendant index, or `none` for the `KeyError`
raised on a fragment reference whose id is not in the lookup. -/
def processAnchors (dab_num : Nat) (entries : List (String × Nat)) :
    List (Nat × String) →
      Option (List (Nat × String × Option String) × List (Nat × String))
  | [] => some ([], [])
  | (i, h) :: rest =>
    if h = "" then processAnchors dab_num entries rest
    else if isFragment h then
      match idLookup entries (fragId h) with
      | none => none
      | some j =>
        (processAnchors dab_num entries rest).map (fun r =>
          ((i, "#" ++ Nat.repr dab_num ++ fragId h, none) :: r.1,
            (j, Nat.repr dab_num ++ fragId h) :: r.2))
    else
      (processAnchors dab_num entries rest).map (fun r =>
        ((i, "#", some ("return select_dab(this, " ++ Nat.repr dab_num ++ ")")) :: r.1,
          r.2))

/-- Apply the collected updates to one node's attribute list, given its
descendant index. -/
def applyUpdates (aU : List (Nat × String × Option String)) (iU : List (Nat × String))
    (i : Nat) (attrs : List (String × String)) : List (String × String) :=
  let a1 := match aU.find? (fun u => u.1 == i) with
    | some u =>
      let a2 := setAttr attrs "href" u.2.1
      match u.2.2 with
      | some oc => setAttr a2 "onclick" oc
      | none => a2
    | none => attrs
  match iU.find? (fun u => u.1 == i) with
  | some u => setAttr a1 "id" u.2
  | none => a1

def childrenOf : Html → HtmlList
  | .el _ _ c => c

/-- `get_dab_html` from dab_mechanic/wikipedia.py, on the parsed tree. -/
def get_dab_html (dab_num : Nat) (html : Html) : Option String :=
  match processAnchors dab_num (idEntries (stripToc html))
      (anchorEntries (stripToc html)) with
  | none => none
  | some r =>
    some (serializeH (.el (tagOf (stripToc html)) (attrsOf (stripToc html))
      (updL (applyUpdates r.1 r.2) 0 (childrenOf (stripToc html)))))

/-- The element ids written by the render of one preview: the values of the
id updates, in anchor order. -/
def rewrittenIds (dab_num : Nat) (html : Html) : List String :=
  match processAnchors dab_num (idEntries (stripToc html))
      (anchorEntries (stripToc html)) with
  | none => []
  | some r => r.2.map (·.2)

theorem matchPat_length {p s r : List Char} (h : matchPat p s = some r) :
    r.length + p.length = s.length := by
  induction p generalizing s r with
  | nil => simp [matchPat] at h; simp [h]
  | cons x xs ih =>
    cases s with
    | nil => simp [matchPat] at h
    | cons c cs =>
      simp only [matchPat] at h
      split at h
      · have := ih h
        simp [List.length_cons]
        omega
      · exact absurd h (by simp)

theorem subAllF_fuel {lf lt : List Char} :
    ∀ {f₁ f₂ : Nat} {s : List Char}, s.length ≤ f₁ → s.length ≤ f₂ →
      subAllF lf lt f₁ s = subAllF lf lt f₂ s := by
  intro f₁
  induction f₁ with
  | zero =>
    intro f₂ s h₁ _
    have : s = [] := List.length_eq_zero.mp (Nat.le_zero.mp h₁)
    subst this
    cases f₂ <;> rfl
  | succ a ih =>
    intro f₂ s h₁ h₂
    cases s with
    | nil => cases f₂ <;> rfl
    | cons c cs =>
      cases f₂ with
      | zero => simp at h₂
      | succ b =>
        cases hm : matchPat (pat lf) (c :: cs) with
        | some rest =>
          simp only [subAllF, hm]
          have hlen := matchPat_length hm
          simp only [pat, List.length_cons, List.length_append] at hlen
          simp only [List.length_cons] at h₁ h₂
          have hr1 : rest.length ≤ a := by omega
          have hr2 : rest.length ≤ b := by omega
          rw [ih hr1 hr2]
        | none =>
          simp only [subAllF, hm]
          simp only [List.length_cons] at h₁ h₂
          have h₁' : cs.length ≤ a := by omega
          have h₂' : cs.length ≤ b := by omega
          rw [ih h₁' h₂']

@[simp] theorem subAll_nil (lf lt : List Char) : subAll lf lt [] = [] := rfl

/-- The one-step unfolding of the scan, with the fuel hidden. -/
theorem subAll_cons (lf lt : List Char) (c : Char) (cs : List Char) :
    subAll lf lt (c :: cs) =
      match matchPat (pat lf) (c :: cs) with
      | some rest => repl lf lt ++ subAll lf lt rest
      | none => c :: subAll lf lt cs := by
  show subAllF lf lt (cs.length + 1) (c :: cs) = _
  cases hm : matchPat (pat lf) (c :: cs) with
  | some rest =>
    simp only [subAllF, hm]
    have hlen := matchPat_length hm
    simp only [pat, List.length_cons, List.length_append] at hlen
    have : rest.length ≤ cs.length := by omega
    rw [subAllF_fuel this (Nat.le_refl rest.length)]
    rfl
  | none =>
    simp only [subAllF, hm]
    rw [subAllF_fuel (Nat.le_refl cs.length) (Nat.le_refl cs.length)]
    rfl

/-! ### Combinatorics of the compiled pattern

The pattern `\[\[{escape(lf)}\]\]` can be analysed position by position: a
match can only begin at a literal `[`, and the behaviour at a wikilink is
decided by comparing the link title with `lf` under `chMatch`. -/
theorem chMatch_self (c : Char) : chMatch c c = true := by
  unfold chMatch
  split <;> simp_all

theorem listMatch_self (t : List Char) : listMatch t t = true := by
  induction t with
  | nil => rfl
  | cons c cs ih => simp [listMatch, chMatch_self, ih]

theorem chMatch_iff_norm (p c : Char) : chMatch p c = true ↔ normChar p = normChar c := by
  unfold chMatch normChar
  by_cases hp : p = '_' <;> by_cases hc : c = '_' <;>
    by_cases hp' : p = ' ' <;> by_cases hc' : c = ' ' <;>
      simp_all <;>
        first
          | assumption
          | exact eq_comm
          | (intro h; subst h; simp_all)

theorem listMatch_iff_norm (p s : List Char) :
    listMatch p s = true ↔ p.map normChar = s.map normChar := by
  induction p generalizing s with
  | nil => cases s <;> simp [listMatch]
  | cons x xs ih =>
    cases s with
    | nil => simp [listMatch]
    | cons c cs =>
      simp [listMatch, Bool.and_eq_true, chMatch_iff_norm, ih]

theorem matchPat_prepend_self (xs p s : List Char) :
    matchPat (xs ++ p) (xs ++ s) = matchPat p s := by
  induction xs with
  | nil => rfl
  | cons c cs ih => simp [matchPat, chMatch_self, ih]

theorem matchPat_pat_cons2 (lf s : List Char) :
    matchPat (pat lf) ('[' :: '[' :: s) = matchPat (lf ++ [']', ']']) s := by
  have h : chMatch '[' '[' = true := chMatch_self '['
  simp [pat, matchPat, h]

/-- A pattern character that is neither a space nor an underscore accepts only
itself. -/
theorem chMatch_of_ne {p c : Char} (hp : p ≠ ' ') (hp2 : p ≠ '_') (hne : c ≠ p) :
    chMatch p c = false := by
  unfold chMatch
  have hcond : ((p = ' ' || p = '_') : Bool) = false := by
    simp [hp, hp2]
  rw [hcond]
  simp [hne]

/-- A text character that is neither a space nor an underscore is accepted
only by itself as pattern character. -/
theorem chMatch_to_special {p c : Char} (hc : c ≠ ' ') (hc2 : c ≠ '_') (hne : p ≠ c) :
    chMatch p c = false := by
  unfold chMatch
  by_cases hcond : ((p = ' ' || p = '_') : Bool) = true
  · rw [if_pos hcond]
    simp [hc, hc2]
  · rw [if_neg hcond]
    simp only [decide_eq_false_iff_not]
    exact fun h => hne h.symm

theorem matchPat_pat_not_lbracket {c : Char} (hc : c ≠ '[') (lf s : List Char) :
    matchPat (pat lf) (c :: s) = none := by
  simp [pat, matchPat, chMatch_of_ne (by decide) (by decide) hc]

/-- Matching the tail of the pattern against an unpiped wikilink body `t]]…`:
with brackets excluded from `lf` and `t`, the match succeeds exactly when the
title `t` agrees with `lf` componentwise, and then consumes exactly `t]]`. -/
theorem matchPat_unpiped_body {lf t : List Char} (hlf : ']' ∉ lf) (ht : ']' ∉ t)
    (v : List Char) :
    matchPat (lf ++ [']', ']']) (t ++ ']' :: ']' :: v) =
      if listMatch lf t then some v else none := by
  induction lf generalizing t with
  | nil =>
    cases t with
    | nil => simp [matchPat, chMatch_self, listMatch]
    | cons c cs =>
      have hc : chMatch ']' c = false :=
        chMatch_of_ne (by decide) (by decide) (fun h => ht (h ▸ List.mem_cons_self c cs))
      simp [matchPat, hc, listMatch]
  | cons p ps ih =>
    cases t with
    | nil =>
      have hp : chMatch p ']' = false :=
        chMatch_to_special (by decide) (by decide) (fun h => hlf (h ▸ List.mem_cons_self p ps))
      simp [matchPat, hp, listMatch]
    | cons c cs =>
      have hlf' : ']' ∉ ps := fun h => hlf (List.mem_cons_of_mem p h)
      have ht' : ']' ∉ cs := fun h => ht (List.mem_cons_of_mem c h)
      simp only [List.cons_append, matchPat, listMatch]
      rcases Bool.eq_false_or_eq_true (chMatch p c) with hpc | hpc <;>
        simp [hpc, ih hlf' ht']

/-- Matching the tail of the pattern against a piped wikilink body `t|…`
always fails: the pattern cannot produce the pipe character. -/
theorem matchPat_piped_body {lf t : List Char} (hlf : '|' ∉ lf) (ht : ']' ∉ t)
    (z : List Char) :
    matchPat (lf ++ [']', ']']) (t ++ '|' :: z) = none := by
  induction lf generalizing t with
  | nil =>
    cases t with
    | nil =>
      have : chMatch ']' '|' = false := by decide
      simp [matchPat, this]
    | cons c cs =>
      have hc : chMatch ']' c = false :=
        chMatch_of_ne (by decide) (by decide) (fun h => ht (h ▸ List.mem_cons_self c cs))
      simp [matchPat, hc]
  | cons p ps ih =>
    cases t with
    | nil =>
      have hp : chMatch p '|' = false :=
        chMatch_to_special (by decide) (by decide) (fun h => hlf (h ▸ List.mem_cons_self p ps))
      simp [matchPat, hp]
    | cons c cs =>
      have hlf' : '|' ∉ ps := fun h => hlf (List.mem_cons_of_mem p h)
      have ht' : ']' ∉ cs := fun h => ht (List.mem_cons_of_mem c h)
      simp only [List.cons_append, matchPat]
      rcases Bool.eq_false_or_eq_true (chMatch p c) with hpc | hpc <;>
        simp [hpc, ih hlf' ht']

theorem subAll_peel {lf lt u v : List Char} (h : noMatchIn lf u v) :
    subAll lf lt (u ++ v) = u ++ subAll lf lt v := by
  induction u with
  | nil => simp
  | cons c cs ih =>
    rcases h with ⟨h1, h2⟩
    rw [List.cons_append, subAll_cons]
    rw [show c :: (cs ++ v) = (c :: cs) ++ v from rfl] at h1
    rw [List.cons_append] at h1
    simp only [h1]
    rw [ih h2]
    simp

theorem noMatchIn_of_no_lbracket {lf u : List Char} (h : '[' ∉ u) (v : List Char) :
    noMatchIn lf u v := by
  induction u with
  | nil => trivial
  | cons c cs ih =>
    refine ⟨matchPat_pat_not_lbracket (fun hc => h (hc ▸ List.mem_cons_self c cs)) lf _, ?_⟩
    exact ih (fun hc => h (List.mem_cons_of_mem c hc))

/-- A match never begins anywhere inside the rendering of a good piece that
is not an unpiped link matching `lf`; and at an unpiped link matching `lf`
the match consumes exactly the link. -/
theorem matchPat_at_unpiped {lf t : List Char} (hlf : ']' ∉ lf) (ht : ']' ∉ t)
    (v : List Char) :
    matchPat (pat lf) (Piece.render (.unpiped t) ++ v) =
      if listMatch lf t then some v else none := by
  show matchPat (pat lf) ('[' :: '[' :: ((t ++ [']', ']']) ++ v)) = _
  rw [matchPat_pat_cons2]
  rw [List.append_assoc]
  exact matchPat_unpiped_body hlf ht v

theorem noMatchIn_unpiped_tail {lf t : List Char} (ht : '[' ∉ t) (v : List Char) :
    noMatchIn lf ('[' :: (t ++ [']', ']'])) v := by
  refine ⟨?_, ?_⟩
  · show matchPat (pat lf) ('[' :: ((t ++ [']', ']']) ++ v)) = none
    simp only [pat, matchPat, chMatch_self '[', if_true]
    cases t with
    | nil =>
      have h2 : chMatch '[' ']' = false := by decide
      simp [matchPat, h2]
    | cons c cs =>
      have hc : chMatch '[' c = false :=
        chMatch_of_ne (by decide) (by decide) (fun h => ht (h ▸ List.mem_cons_self c cs))
      simp [matchPat, hc]
  · apply noMatchIn_of_no_lbracket
    intro hmem
    rcases List.mem_append.mp hmem with h | h
    · exact ht h
    · simp at h

theorem noMatchIn_piped {lf t d : List Char} (hlf : '|' ∉ lf) (ht : noBracket t)
    (hd : noBracket d) (v : List Char) :
    noMatchIn lf (Piece.render (.piped t d)) v := by
  refine ⟨?_, ?_, ?_⟩
  · show matchPat (pat lf) ('[' :: '[' :: ((t ++ '|' :: (d ++ [']', ']'])) ++ v)) = none
    rw [matchPat_pat_cons2]
    rw [List.append_assoc]
    simp only [List.cons_append]
    exact matchPat_piped_body hlf ht.2 _
  · show matchPat (pat lf) ('[' :: ((t ++ '|' :: (d ++ [']', ']'])) ++ v)) = none
    simp only [pat, matchPat, chMatch_self '[', if_true]
    cases t with
    | nil =>
      have h2 : chMatch '[' '|' = false := by decide
      simp [matchPat, h2]
    | cons c cs =>
      have hc : chMatch '[' c = false :=
        chMatch_of_ne (by decide) (by decide) (fun h => ht.1 (h ▸ List.mem_cons_self c cs))
      simp [matchPat, hc]
  · apply noMatchIn_of_no_lbracket
    intro hmem
    rcases List.mem_append.mp hmem with h | h
    · exact ht.1 h
    · rcases List.mem_cons.mp h with h | h
      · exact absurd h (by decide)
      · rcases List.mem_append.mp h with h | h
        · exact hd.1 h
        · simp at h

/-- The central decomposition: on a good piece sequence, one substitution
pass acts exactly as `editPiece` on every piece. -/
theorem subAll_renderPieces {lf : List Char} (lt : List Char)
    (hlf1 : noBracket lf) (hlf2 : '|' ∉ lf) :
    ∀ ps : List Piece, (∀ p ∈ ps, goodPiece p) →
      subAll lf lt (renderPieces ps) = renderPieces (ps.map (editPiece lf lt)) := by
  intro ps
  induction ps with
  | nil => intro _; simp [renderPieces]
  | cons p rest ih =>
    intro hgood
    have hp : goodPiece p := hgood p (List.mem_cons_self p rest)
    have hrest : ∀ q ∈ rest, goodPiece q := fun q hq => hgood q (List.mem_cons_of_mem p hq)
    have hren : renderPieces (p :: rest) = Piece.render p ++ renderPieces rest := by
      simp [renderPieces]
    rw [hren]
    cases p with
    | raw s =>
      simp only [Piece.render]
      rw [subAll_peel (noMatchIn_of_no_lbracket hp.1 _)]
      rw [ih hrest]
      simp [renderPieces, editPiece, Piece.render]
    | unpiped t =>
      rcases hp with ⟨htl, htr⟩
      rcases hm : listMatch lf t with _ | _
      · have hmm : matchPat (pat lf) (Piece.render (.unpiped t) ++ renderPieces rest) = none := by
          rw [matchPat_at_unpiped hlf1.2 htr]
          simp [hm]
        have hnm : noMatchIn lf (Piece.render (.unpiped t)) (renderPieces rest) := by
          refine ⟨?_, noMatchIn_unpiped_tail htl _⟩
          show matchPat (pat lf) ('[' :: ('[' :: (t ++ [']', ']'])) ++ renderPieces rest) = none
          exact hmm
        rw [subAll_peel hnm, ih hrest]
        simp [renderPieces, editPiece, hm, Piece.render]
      · have hmm : matchPat (pat lf) (Piece.render (.unpiped t) ++ renderPieces rest) =
            some (renderPieces rest) := by
          rw [matchPat_at_unpiped hlf1.2 htr]
          simp [hm]
        have hcons : Piece.render (.unpiped t) ++ renderPieces rest =
            '[' :: ('[' :: ((t ++ [']', ']']) ++ renderPieces rest)) := by
          simp [Piece.render]
        rw [hcons, subAll_cons]
        rw [hcons] at hmm
        simp only [hmm]
        rw [ih hrest]
        simp [renderPieces, editPiece, hm, repl, Piece.render]
    | piped t d =>
      rcases hp with ⟨ht, hd⟩
      rw [subAll_peel (noMatchIn_piped hlf2 ht hd _), ih hrest]
      simp [renderPieces, editPiece, Piece.render]

theorem goodPiece_editPiece {e : String × String} (he : goodEdit e) {p : Piece}
    (hp : goodPiece p) : goodPiece (editPiece e.1.toList e.2.toList p) := by
  cases p with
  | raw s => exact hp
  | unpiped t =>
    show goodPiece
      (if listMatch e.1.toList t = true then Piece.piped e.2.toList e.1.toList
        else Piece.unpiped t)
    by_cases hb : listMatch e.1.toList t = true
    · rw [if_pos hb]
      exact ⟨he.2.2.1, he.1⟩
    · rw [if_neg hb]
      exact hp
  | piped t d => exact hp

/-- The function `apply_edits` acts piecewise on a good piece sequence: every edit is
applied, in order, to every piece. -/
theorem applyEditsL_renderPieces (edits : List (String × String))
    (he : ∀ e ∈ edits, goodEdit e) :
    ∀ ps : List Piece, (∀ p ∈ ps, goodPiece p) →
      applyEditsL (renderPieces ps) edits = renderPieces (ps.map (editAll edits)) := by
  induction edits with
  | nil =>
    intro ps hps
    clear hps
    have h : ps.map (editAll []) = ps := by
      induction ps with
      | nil => rfl
      | cons a l ihl =>
        simp only [List.map_cons, ihl]
        rfl
    rw [h]
    rfl
  | cons e rest ih =>
    intro ps hps
    have he1 : goodEdit e := he e (List.mem_cons_self e rest)
    have herest : ∀ x ∈ rest, goodEdit x := fun x hx => he x (List.mem_cons_of_mem e hx)
    have h1 : subAll e.1.toList e.2.toList (renderPieces ps) =
        renderPieces (ps.map (editPiece e.1.toList e.2.toList)) :=
      subAll_renderPieces e.2.toList he1.1 he1.2.1 ps hps
    have hgood' : ∀ p ∈ ps.map (editPiece e.1.toList e.2.toList), goodPiece p := by
      intro p hmem
      rcases List.mem_map.mp hmem with ⟨q, hq, rfl⟩
      exact goodPiece_editPiece he1 (hps q hq)
    have h2 := ih herest (ps.map (editPiece e.1.toList e.2.toList)) hgood'
    show applyEditsL (subAll e.1.toList e.2.toList (renderPieces ps)) rest = _
    rw [h1, h2, List.map_map]
    rfl

theorem subAll_of_no_match {lf lt s : List Char} (h : hasMatchIn lf s = false) :
    subAll lf lt s = s := by
  induction s with
  | nil => rfl
  | cons c cs ih =>
    simp only [hasMatchIn, Bool.or_eq_false_iff] at h
    rw [subAll_cons]
    rcases hm : matchPat (pat lf) (c :: cs) with _ | rest
    · rw [ih h.2]
    · rw [hm] at h
      simp at h

theorem editAll_of_untouched {edits : List (String × String)} {p : Piece}
    (h : untouched edits p) : editAll edits p = p := by
  induction edits with
  | nil => rfl
  | cons e rest ih =>
    have hstep : editPiece e.1.toList e.2.toList p = p := by
      cases p with
      | raw s => rfl
      | piped t d => rfl
      | unpiped t =>
        have h0 : listMatch e.1.data t = false := h e (List.mem_cons_self e rest)
        simp [editPiece, h0]
    have htail : untouched rest p := by
      cases p with
      | raw s => trivial
      | piped t d => trivial
      | unpiped t => exact fun x hx => h x (List.mem_cons_of_mem e hx)
    show editAll rest (editPiece e.1.toList e.2.toList p) = p
    rw [hstep]
    exact ih htail

/-! ## Claims about `apply_edits` -/
/-- C1, counterexample.  The claim asserts that for a wikilink that already
has display text, `apply_edits` rewrites the target and keeps the display
text: `[[Springfield|my home]]` with an edit resolving `Springfield` to
`Springfield, Ohio` would become `[[Springfield, Ohio|my home]]`.  In the
code the regular expression `\[\[Springfield\]\]` cannot match the piped
link at all, so the link is returned entirely unchanged. -/
theorem apply_edits_piped_cex :
    apply_edits "[[Springfield|my home]]" [("Springfield", "Springfield, Ohio")] =
      "[[Springfield|my home]]" ∧
    "[[Springfield|my home]]" ≠ "[[Springfield, Ohio|my home]]" := by
  exact ⟨by decide, by decide⟩

/-- C1, amended.  `apply_edits` on a wikilink with no explicit display text
rewrites `[[lf]]` to `[[lt|lf]]`, setting the display text to the old
target; a wikilink that already carries display text is left entirely
unchanged (its target is not rewritten).  Bracket/pipe/backslash-freeness
makes the strings honest titles and the Python replacement template
literal. -/
theorem apply_edits_display_text (lf lt d : String)
    (h1 : noBracket lf.toList) (h2 : '|' ∉ lf.toList) (h3 : noBracket lt.toList)
    (h4 : '\\' ∉ lf.toList) (h5 : '\\' ∉ lt.toList) (h6 : noBracket d.toList) :
    apply_edits ("[[" ++ lf ++ "]]") [(lf, lt)] = "[[" ++ lt ++ "|" ++ lf ++ "]]" ∧
    apply_edits ("[[" ++ lf ++ "|" ++ d ++ "]]") [(lf, lt)] =
      "[[" ++ lf ++ "|" ++ d ++ "]]" := by
  have hge : ∀ e ∈ [(lf, lt)], goodEdit e := by
    intro e he
    simp only [List.mem_singleton] at he
    subst he
    exact ⟨h1, h2, h3, h4, h5⟩
  constructor
  · have hps : ∀ p ∈ [Piece.unpiped lf.toList], goodPiece p := by
      intro p hp
      simp only [List.mem_singleton] at hp
      subst hp
      exact h1
    have hrender : ("[[" ++ lf ++ "]]").toList = renderPieces [Piece.unpiped lf.toList] := by
      simp [renderPieces, Piece.render, String.data_append]
    have h := applyEditsL_renderPieces [(lf, lt)] hge [Piece.unpiped lf.toList] hps
    show String.mk (applyEditsL ("[[" ++ lf ++ "]]").toList [(lf, lt)]) = _
    rw [hrender, h]
    apply String.ext
    simp [renderPieces, Piece.render, String.data_append, editAll, editPiece, listMatch_self]
  · have hps : ∀ p ∈ [Piece.piped lf.toList d.toList], goodPiece p := by
      intro p hp
      simp only [List.mem_singleton] at hp
      subst hp
      exact ⟨h1, h6⟩
    have hrender : ("[[" ++ lf ++ "|" ++ d ++ "]]").toList =
        renderPieces [Piece.piped lf.toList d.toList] := by
      simp [renderPieces, Piece.render, String.data_append]
    have h := applyEditsL_renderPieces [(lf, lt)] hge [Piece.piped lf.toList d.toList] hps
    show String.mk (applyEditsL ("[[" ++ lf ++ "|" ++ d ++ "]]").toList [(lf, lt)]) = _
    rw [hrender, h]
    apply String.ext
    simp [renderPieces, Piece.render, String.data_append, editAll, editPiece]

/-- Witness for the amended C1 at concrete inputs. -/
theorem apply_edits_display_text_witness :
    apply_edits "[[Springfield]]" [("Springfield", "Springfield, Ohio")] =
      "[[Springfield, Ohio|Springfield]]" ∧
    apply_edits "[[Springfield|my home]]" [("Springfield", "Springfield, Ohio")] =
      "[[Springfield|my home]]" := by
  have h := apply_edits_display_text "Springfield" "Springfield, Ohio" "my home"
    ⟨by decide, by decide⟩ (by decide) ⟨by decide, by decide⟩ (by decide) (by decide)
    ⟨by decide, by decide⟩
  exact ⟨by decide, h.2⟩

/-- C2, counterexample.  The claim asserts that whenever the number of
accepted edits differs from the number of matching wikilink occurrences,
`apply_edits` raises a consistency failure and never returns a partially
edited text.  The code contains no such check: here one edit is accepted,
its pattern matches zero wikilinks, and the unchanged text is returned
normally (zero of the one accepted edits applied, no failure). -/
theorem apply_edits_no_consistency_check_cex :
    hasMatchIn "A".toList "See [[B]].".toList = false ∧
    apply_edits "See [[B]]." [("A", "C")] = "See [[B]]." := by
  exact ⟨by decide, by decide⟩

/-- C2, amended.  `apply_edits` performs no edit-count/link-count
consistency check at all: an edit whose pattern matches nowhere in the text
is silently dropped and the text is returned unchanged — there is no failure
path.  (The backslash conditions keep the Python replacement template from
raising for unrelated reasons.) -/
theorem apply_edits_silent_on_mismatch (text lf lt : String)
    (h : hasMatchIn lf.toList text.toList = false)
    (_hb1 : '\\' ∉ lf.toList) (_hb2 : '\\' ∉ lt.toList) :
    apply_edits text [(lf, lt)] = text := by
  show String.mk (subAll lf.toList lt.toList text.toList) = text
  rw [subAll_of_no_match h]
  rfl

/-- Witness for the amended C2 at concrete inputs. -/
theorem apply_edits_silent_on_mismatch_witness :
    hasMatchIn "A".toList "no links".toList = false ∧
    apply_edits "no links" [("A", "C")] = "no links" :=
  ⟨by decide,
    apply_edits_silent_on_mismatch "no links" "A" "C" (by decide) (by decide) (by decide)⟩

/-- C8, counterexample.  The claim asserts that for any edit list,
`apply_edits` leaves every wikilink whose target is not named in the edits
unchanged.  An adversarial `link_from` containing brackets can span two
wikilinks at once: with the single edit `("X]] [[C", "B")` the wikilink
`[[X]]` (target `X`, which is named by no edit, and `X ≠ X]] [[C`) is
destroyed: the substring `[[X]]` occurs in the input but not in the
output. -/
theorem apply_edits_preserves_cex :
    containsSub "[[X]]".toList "[[X]] [[C]]".toList = true ∧
    ("X" : String) ≠ "X]] [[C" ∧
    apply_edits "[[X]] [[C]]" [("X]] [[C", "B")] = "[[B|X]] [[C]]" ∧
    containsSub "[[X]]".toList (apply_edits "[[X]] [[C]]" [("X]] [[C", "B")]).toList =
      false := by
  exact ⟨by decide, by decide, by decide, by decide⟩

/-- C8, amended.  With an empty edit list `apply_edits` returns its input
exactly; and for edit lists whose `link_from`/`link_to` strings are honest
titles (no brackets, no pipe in the matched title, no backslash),
`apply_edits` acts piecewise on any text made of honest pieces, and every
piece it does not name — any piped or raw piece, and any unpiped wikilink
whose target matches no edit — is left exactly in place. -/
theorem apply_edits_noop_and_preserves :
    (∀ text : String, apply_edits text [] = text) ∧
    (∀ edits : List (String × String), (∀ e ∈ edits, goodEdit e) →
      (∀ ps : List Piece, (∀ p ∈ ps, goodPiece p) →
        apply_edits (String.mk (renderPieces ps)) edits =
          String.mk (renderPieces (ps.map (editAll edits)))) ∧
      (∀ p : Piece, untouched edits p → editAll edits p = p)) := by
  constructor
  · intro text
    rfl
  · intro edits hge
    constructor
    · intro ps hps
      show String.mk (applyEditsL (String.mk (renderPieces ps)).toList edits) = _
      have hdata : (String.mk (renderPieces ps)).toList = renderPieces ps := rfl
      rw [hdata, applyEditsL_renderPieces edits hge ps hps]
    · intro p hp
      exact editAll_of_untouched hp

/-- Witness for the amended C8 at concrete inputs. -/
theorem apply_edits_noop_and_preserves_witness :
    apply_edits "raw [[text]] here" [] = "raw [[text]] here" ∧
    (∀ e ∈ [("A B", "Ohio")], goodEdit e) ∧
    apply_edits (String.mk (renderPieces
        [Piece.unpiped "A_B".toList, Piece.raw " and ".toList,
          Piece.unpiped "Z".toList])) [("A B", "Ohio")] =
      String.mk (renderPieces ((
        [Piece.unpiped "A_B".toList, Piece.raw " and ".toList,
          Piece.unpiped "Z".toList]).map (editAll [("A B", "Ohio")]))) ∧
    untouched [("A B", "Ohio")] (Piece.unpiped "Z".toList) ∧
    editAll [("A B", "Ohio")] (Piece.unpiped "Z".toList) = Piece.unpiped "Z".toList := by
  have hge : ∀ e ∈ [(("A B" : String), ("Ohio" : String))], goodEdit e := by
    intro e he
    simp only [List.mem_singleton] at he
    subst he
    exact ⟨⟨by decide, by decide⟩, by decide, ⟨by decide, by decide⟩, by decide, by decide⟩
  have hps : ∀ p ∈ [Piece.unpiped "A_B".toList, Piece.raw " and ".toList,
      Piece.unpiped "Z".toList], goodPiece p := by
    intro p hp
    simp only [List.mem_cons, List.not_mem_nil, or_false] at hp
    rcases hp with rfl | rfl | rfl
    · exact ⟨by decide, by decide⟩
    · exact ⟨by decide, by decide⟩
    · exact ⟨by decide, by decide⟩
  have hu : untouched [(("A B" : String), ("Ohio" : String))] (Piece.unpiped "Z".toList) := by
    intro e he
    simp only [List.mem_singleton] at he
    subst he
    decide
  refine ⟨apply_edits_noop_and_preserves.1 _, hge,
    (apply_edits_noop_and_preserves.2 _ hge).1 _ hps, hu,
    (apply_edits_noop_and_preserves.2 _ hge).2 _ hu⟩

/-- C10.  For every edit `(link_from, link_to)` made of honest title strings,
one pass of `apply_edits` rewrites every unpiped occurrence whose target
matches `link_from` — all of them, piecewise across the whole text — where
matching treats spaces and underscores as interchangeable (`normChar`), and
piped occurrences are never rewritten. -/
theorem apply_edits_matching_semantics (lf lt : String)
    (h1 : noBracket lf.toList) (h2 : '|' ∉ lf.toList) (h3 : noBracket lt.toList)
    (h4 : '\\' ∉ lf.toList) (h5 : '\\' ∉ lt.toList) :
    (∀ ps : List Piece, (∀ p ∈ ps, goodPiece p) →
      apply_edits (String.mk (renderPieces ps)) [(lf, lt)] =
        String.mk (renderPieces (ps.map (editPiece lf.toList lt.toList)))) ∧
    (∀ t : List Char, editPiece lf.toList lt.toList (Piece.unpiped t) =
      if listMatch lf.toList t then Piece.piped lt.toList lf.toList
      else Piece.unpiped t) ∧
    (∀ t : List Char, listMatch lf.toList t = true ↔
      lf.toList.map normChar = t.map normChar) ∧
    (∀ t d : List Char, editPiece lf.toList lt.toList (Piece.piped t d) =
      Piece.piped t d) := by
  refine ⟨?_, fun t => rfl, fun t => listMatch_iff_norm _ _, fun t d => rfl⟩
  intro ps hps
  show String.mk (applyEditsL (String.mk (renderPieces ps)).toList [(lf, lt)]) = _
  have hdata : (String.mk (renderPieces ps)).toList = renderPieces ps := rfl
  have hge : ∀ e ∈ [(lf, lt)], goodEdit e := by
    intro e he
    simp only [List.mem_singleton] at he
    subst he
    exact ⟨h1, h2, h3, h4, h5⟩
  rw [hdata, applyEditsL_renderPieces [(lf, lt)] hge ps hps]
  have hmap : ps.map (editAll [(lf, lt)]) = ps.map (editPiece lf.toList lt.toList) := rfl
  rw [hmap]

/-- Witness for C10 at concrete inputs: both unpiped occurrences of the
target (one spelled with an underscore) are rewritten, the piped one is
not. -/
theorem apply_edits_matching_semantics_witness :
    apply_edits "[[A_B]] x [[A B]] y [[A B|keep]]" [("A B", "C")] =
      "[[C|A B]] x [[C|A B]] y [[A B|keep]]" ∧
    listMatch "A B".toList "A_B".toList = true := by
  have h := apply_edits_matching_semantics "A B" "C"
    ⟨by decide, by decide⟩ (by decide) ⟨by decide, by decide⟩ (by decide) (by decide)
  have hps : ∀ p ∈ [Piece.unpiped "A_B".toList, Piece.raw " x ".toList,
      Piece.unpiped "A B".toList, Piece.raw " y ".toList,
      Piece.piped "A B".toList "keep".toList], goodPiece p := by
    intro p hp
    simp only [List.mem_cons, List.not_mem_nil, or_false] at hp
    rcases hp with rfl | rfl | rfl | rfl | rfl
    · exact ⟨by decide, by decide⟩
    · exact ⟨by decide, by decide⟩
    · exact ⟨by decide, by decide⟩
    · exact ⟨by decide, by decide⟩
    · exact ⟨⟨by decide, by decide⟩, by decide, by decide⟩
  have h1 := h.1 _ hps
  constructor
  · have hin : ("[[A_B]] x [[A B]] y [[A B|keep]]" : String) =
        String.mk (renderPieces [Piece.unpiped "A_B".toList, Piece.raw " x ".toList,
          Piece.unpiped "A B".toList, Piece.raw " y ".toList,
          Piece.piped "A B".toList "keep".toList]) := by decide
    rw [hin, h1]
    decide
  · decide

theorem length_make_disamb_link (e : String × String) :
    (make_disamb_link e).length = e.1.length + e.2.length + 5 := by
  simp [make_disamb_link, String.length_append,
    show ("[[" : String).length = 2 from rfl, show ("|" : String).length = 1 from rfl,
    show ("]]" : String).length = 2 from rfl]
  omega

theorem joinSep_length_ge (sep : String) (x : String) (xs : List String) :
    x.length ≤ (joinSep sep (x :: xs)).length := by
  cases xs with
  | nil => simp [joinSep]
  | cons y ys =>
    simp [joinSep, String.length_append]
    omega

/-- C7.  The summary built by `save`: each accepted edit is rendered as
`[[chosen|link_target]]`; all but the last rendered link are joined with
`", "`; the last is joined with `" and "` exactly when there are at least
two edits; the fixed attribution suffix is always appended.  A single edit
`(B, A)` yields exactly `Disambiguate [[A|B]] using [[User:Edward/Dab
mechanic]]`, with no joiner words.  (The code tests `len(titles) > 1` on the
joined string; this equals the at-least-two-edits test because a rendered
link is never shorter than five characters.) -/
theorem save_summary_spec :
    (∀ e : String × String, save_summary [e] =
      some ("Disambiguate [[" ++ e.2 ++ "|" ++ e.1 ++
        "]] using [[User:Edward/Dab mechanic]]")) ∧
    (∀ (es : List (String × String)) (e : String × String),
      save_summary (es ++ [e]) =
        some ("Disambiguate " ++ joinSep ", " (es.map make_disamb_link) ++
          (if es = [] then "" else " and ") ++ make_disamb_link e ++
          " using [[User:Edward/Dab mechanic]]")) := by
  have main : ∀ (es : List (String × String)) (e : String × String),
      save_summary (es ++ [e]) =
        some ("Disambiguate " ++ joinSep ", " (es.map make_disamb_link) ++
          (if es = [] then "" else " and ") ++ make_disamb_link e ++
          " using [[User:Edward/Dab mechanic]]") := by
    intro es e
    simp only [save_summary, List.getLast?_concat, List.dropLast_concat]
    cases es with
    | nil =>
      apply congrArg some
      apply String.ext
      simp [joinSep, String.data_append, make_disamb_link]
    | cons x xs =>
      have h1 := joinSep_length_ge ", " (make_disamb_link x) (xs.map make_disamb_link)
      have h2 := length_make_disamb_link x
      have hlen : 1 < (joinSep ", " (((x :: xs).map make_disamb_link))).length := by
        simp only [List.map_cons] at h1 ⊢
        omega
      rw [if_pos hlen]
      have hne : ¬((x :: xs : List (String × String)) = []) := by simp
      rw [if_neg hne]
      apply congrArg some
      apply String.ext
      simp [String.data_append]
  constructor
  · intro e
    have h := main [] e
    simp only [List.nil_append, if_pos rfl] at h
    rw [h]
    apply congrArg some
    apply String.ext
    simp [joinSep, String.data_append, make_disamb_link]
  · exact main

theorem mem_insertNew_left {a : String} {s : List String} (h : a ∈ s) (x : String) :
    a ∈ insertNew s x := by
  unfold insertNew
  split
  · exact h
  · exact List.mem_append_left _ h

theorem mem_updateSet_left {a : String} {s : List String} (h : a ∈ s) (xs : List String) :
    a ∈ updateSet s xs := by
  induction xs generalizing s with
  | nil => exact h
  | cons x xs ih => exact ih (mem_insertNew_left h x)

theorem mem_insertNew_self (s : List String) (x : String) : x ∈ insertNew s x := by
  unfold insertNew
  split
  · assumption
  · exact List.mem_append_right _ (List.mem_singleton.mpr rfl)

theorem mem_updateSet_arg {a : String} {xs : List String} (h : a ∈ xs) (s : List String) :
    a ∈ updateSet s xs := by
  induction xs generalizing s with
  | nil => simp at h
  | cons x xs ih =>
    rcases List.mem_cons.mp h with rfl | h2
    · exact mem_updateSet_left (mem_insertNew_self s a) xs
    · exact ih h2 (insertNew s x)

theorem mem_foldl_updateSet {f : String → List String} {links : List String} :
    ∀ {init : List String} {a : String},
      (a ∈ init ∨ ∃ l ∈ links, a ∈ f l) →
      a ∈ links.foldl (fun acc l => updateSet acc (f l)) init := by
  induction links with
  | nil =>
    intro init a h
    rcases h with h | ⟨l, hl, _⟩
    · exact h
    · simp at hl
  | cons y ys ih =>
    intro init a h
    show a ∈ ys.foldl _ (updateSet init (f y))
    rcases h with h | ⟨l, hl, hf⟩
    · exact ih (Or.inl (mem_updateSet_left h _))
    · rcases List.mem_cons.mp hl with rfl | h2
      · exact ih (Or.inl (mem_updateSet_arg hf _))
      · exact ih (Or.inr ⟨l, h2, hf⟩)

/-- C3.  Redirect closure of the resolved set: if the side list accumulated
during pagination records that `A` redirects to `B`, and `B` is in the
accumulated link set, then `A` is in the set returned by
`get_article_links`. -/
theorem get_article_links_redirect_closure (batches : List ApiBatch) (A B : String)
    (hred : (A, B) ∈ (runBatches [] [] batches).2)
    (hlink : B ∈ (runBatches [] [] batches).1) :
    A ∈ get_article_links batches := by
  unfold get_article_links
  apply mem_foldl_updateSet
  refine Or.inr ⟨B, hlink, ?_⟩
  apply List.mem_map.mpr
  refine ⟨(A, B), ?_, rfl⟩
  apply List.mem_filter.mpr
  exact ⟨hred, by simp⟩

/-- Witness for C3 on a concrete two-batch response: `Foo` redirects to the
disambiguation page `Bar`; `Bar` is resolved, and the closure adds `Foo`. -/
theorem get_article_links_redirect_closure_witness :
    (("Foo", "Bar") ∈ (runBatches [] []
      [⟨[⟨"Bar", some ["Template:Disambiguation"]⟩], [("Foo", "Bar")], false⟩]).2) ∧
    ("Bar" ∈ (runBatches [] []
      [⟨[⟨"Bar", some ["Template:Disambiguation"]⟩], [("Foo", "Bar")], false⟩]).1) ∧
    "Foo" ∈ get_article_links
      [⟨[⟨"Bar", some ["Template:Disambiguation"]⟩], [("Foo", "Bar")], false⟩] :=
  ⟨by decide, by decide,
    get_article_links_redirect_closure _ "Foo" "Bar" (by decide) (by decide)⟩

/-- C4.  `needs_disambig` holds exactly when the page carries at least one
marker template and its title does not end with `" (disambiguation)"`; in
particular a page without a `templates` key is never a disambiguation
link. -/
theorem needs_disambig_iff :
    (∀ page : ApiPage, needs_disambig page = true ↔
      ((∃ ts, page.templates = some ts ∧ ts ≠ []) ∧
        strEndsWith page.title " (disambiguation)" = false)) ∧
    (∀ title : String, needs_disambig ⟨title, none⟩ = false) := by
  constructor
  · intro page
    unfold needs_disambig
    cases hts : page.templates with
    | none => simp
    | some ts =>
      cases ts with
      | nil => simp
      | cons t rest =>
        cases hend : strEndsWith page.title " (disambiguation)" <;> simp
  · intro title
    unfold needs_disambig
    simp

theorem anchorTitle_set (links : List String) (a : Anchor) (c i : Option String) :
    anchorTitle links { a with cls := c, idAttr := i } = anchorTitle links a := rfl

theorem anchorTitle_markAnchor (links : List String) (a : Anchor) (n : Nat) :
    anchorTitle links (markAnchor a n) = anchorTitle links a := rfl

theorem markAnchor_cls (a : Anchor) (n : Nat) : (markAnchor a n).cls = some "disambig" := rfl

theorem markAnchor_id (a : Anchor) (n : Nat) :
    (markAnchor a n).idAttr = some ("dab-" ++ Nat.repr n) := rfl

theorem find?_key_isSome (cache : List (String × String)) (t : String) :
    (cache.find? (fun p => p.1 == t)).isSome ↔ t ∈ cache.map (·.1) := by
  rw [List.find?_isSome]
  constructor
  · rintro ⟨x, hx, hbeq⟩
    exact List.mem_map.mpr ⟨x, hx, beq_iff_eq.mp hbeq⟩
  · intro h
    rcases List.mem_map.mp h with ⟨x, hx, hxt⟩
    exact ⟨x, hx, beq_iff_eq.mpr hxt⟩

theorem newFirsts_nodup : ∀ (ts seen : List String),
    (newFirsts seen ts).Nodup ∧ ∀ x ∈ newFirsts seen ts, x ∉ seen := by
  intro ts
  induction ts with
  | nil => intro seen; simp [newFirsts]
  | cons t ts ih =>
    intro seen
    by_cases h : t ∈ seen
    · simpa [newFirsts, h] using ih seen
    · have ih2 := ih (seen ++ [t])
      simp only [newFirsts, h, if_neg, if_false]
      constructor
      · refine List.nodup_cons.mpr ⟨?_, ih2.1⟩
        intro hmem
        have := ih2.2 t hmem
        simp at this
      · intro x hx
        rcases List.mem_cons.mp hx with rfl | hx2
        · exact h
        · intro hxs
          exact (ih2.2 x hx2) (List.mem_append_left _ hxs)

theorem wpProcess_spec (render : Nat → String → String) (fetch : String → String)
    (links : List String) :
    ∀ (anchors : List Anchor) (n : Nat) (cache : List (String × String)),
      ((wpProcess render fetch links n cache anchors).2.1.map (·.num) =
          List.range' n (dabTitles links anchors).length) ∧
      ((wpProcess render fetch links n cache anchors).2.1.map (·.title) =
          dabTitles links anchors) ∧
      ((wpProcess render fetch links n cache anchors).2.2 =
          newFirsts (cache.map (·.1)) (dabTitles links anchors)) ∧
      (dabTags links (wpProcess render fetch links n cache anchors).1 =
          (List.range' n (dabTitles links anchors).length).map
            (fun k => ((some "disambig" : Option String),
              (some ("dab-" ++ Nat.repr k) : Option String)))) := by
  intro anchors
  induction anchors with
  | nil =>
    intro n cache
    simp [wpProcess, dabTitles, dabTags, newFirsts]
  | cons a rest ih =>
    intro n cache
    cases ht : anchorTitle links a with
    | none =>
      rcases ih n cache with ⟨h1, h2, h3, h4⟩
      have htitles : dabTitles links (a :: rest) = dabTitles links rest := by
        simp [dabTitles, List.filterMap_cons, ht]
      have hproc : wpProcess render fetch links n cache (a :: rest) =
          ((a :: (wpProcess render fetch links n cache rest).1,
            (wpProcess render fetch links n cache rest).2.1,
            (wpProcess render fetch links n cache rest).2.2)) := by
        simp [wpProcess, ht]
      rw [hproc, htitles]
      refine ⟨h1, h2, h3, ?_⟩
      have htags : dabTags links (a :: (wpProcess render fetch links n cache rest).1) =
          dabTags links (wpProcess render fetch links n cache rest).1 := by
        simp [dabTags, List.filterMap_cons, ht]
      rw [htags, h4]
    | some t =>
      cases hf : cache.find? (fun p => p.1 == t) with
      | some p =>
        rcases ih (n + 1) cache with ⟨h1, h2, h3, h4⟩
        have hmem : t ∈ cache.map (·.1) := by
          apply (find?_key_isSome cache t).mp
          rw [hf]
          rfl
        have htitles : dabTitles links (a :: rest) = t :: dabTitles links rest := by
          simp [dabTitles, List.filterMap_cons, ht]
        have hproc : wpProcess render fetch links n cache (a :: rest) =
            ((markAnchor a n :: (wpProcess render fetch links (n + 1) cache rest).1,
              ⟨n, t, render n p.2⟩ ::
                (wpProcess render fetch links (n + 1) cache rest).2.1,
              (wpProcess render fetch links (n + 1) cache rest).2.2)) := by
          simp [wpProcess, ht, hf]
        rw [hproc, htitles]
        refine ⟨?_, ?_, ?_, ?_⟩
        · simp only [List.map_cons, h1, List.length_cons]
          rw [List.range'_succ]
        · simp [h2]
        · rw [h3, newFirsts, if_pos hmem]
        · have htags : dabTags links (markAnchor a n ::
              (wpProcess render fetch links (n + 1) cache rest).1) =
              (some "disambig", some ("dab-" ++ Nat.repr n)) ::
                dabTags links (wpProcess render fetch links (n + 1) cache rest).1 := by
            simp [dabTags, List.filterMap_cons, anchorTitle_markAnchor, markAnchor_cls,
              markAnchor_id, ht]
          rw [htags, h4, List.length_cons, List.range'_succ]
          simp
      | none =>
        rcases ih (n + 1) (cache ++ [(t, fetch t)]) with ⟨h1, h2, h3, h4⟩
        have hmem : t ∉ cache.map (·.1) := by
          intro hc
          have := (find?_key_isSome cache t).mpr hc
          rw [hf] at this
          simp at this
        have htitles : dabTitles links (a :: rest) = t :: dabTitles links rest := by
          simp [dabTitles, List.filterMap_cons, ht]
        have hproc : wpProcess render fetch links n cache (a :: rest) =
            ((markAnchor a n ::
                (wpProcess render fetch links (n + 1) (cache ++ [(t, fetch t)]) rest).1,
              ⟨n, t, render n (fetch t)⟩ ::
                (wpProcess render fetch links (n + 1) (cache ++ [(t, fetch t)]) rest).2.1,
              t :: (wpProcess render fetch links (n + 1)
                (cache ++ [(t, fetch t)]) rest).2.2)) := by
          simp [wpProcess, ht, hf]
        rw [hproc, htitles]
        refine ⟨?_, ?_, ?_, ?_⟩
        · simp only [List.map_cons, h1, List.length_cons]
          rw [List.range'_succ]
        · simp [h2]
        · rw [h3, newFirsts, if_neg hmem]
          simp
        · have htags : dabTags links (markAnchor a n ::
              (wpProcess render fetch links (n + 1) (cache ++ [(t, fetch t)]) rest).1) =
              (some "disambig", some ("dab-" ++ Nat.repr n)) ::
                dabTags links (wpProcess render fetch links (n + 1)
                  (cache ++ [(t, fetch t)]) rest).1 := by
            simp [dabTags, List.filterMap_cons, anchorTitle_markAnchor, markAnchor_cls,
              markAnchor_id, ht]
          rw [htags, h4, List.length_cons, List.range'_succ]
          simp

theorem anchorTitle_setCls (links : List String) (a : Anchor) (c : Option String) :
    anchorTitle links { a with cls := c } = anchorTitle links a := rfl

theorem wvProcess_spec (render : Nat → String → String) (fetch : String → String)
    (links : List String) :
    ∀ (anchors : List Anchor) (n : Nat) (seen : List String),
      ((wvProcess render fetch links n seen anchors).2.1.map (·.title) =
          newFirsts seen (dabTitles links anchors)) ∧
      ((wvProcess render fetch links n seen anchors).2.1.map (·.num) =
          List.range' n (newFirsts seen (dabTitles links anchors)).length) ∧
      ((wvProcess render fetch links n seen anchors).2.2 =
          newFirsts seen (dabTitles links anchors)) ∧
      ((dabTags links (wvProcess render fetch links n seen anchors).1).map (·.1) =
          List.replicate (dabTitles links anchors).length (some "disambig")) := by
  intro anchors
  induction anchors with
  | nil =>
    intro n seen
    simp [wvProcess, dabTitles, dabTags, newFirsts]
  | cons a rest ih =>
    intro n seen
    cases ht : anchorTitle links a with
    | none =>
      rcases ih n seen with ⟨h1, h2, h3, h4⟩
      have htitles : dabTitles links (a :: rest) = dabTitles links rest := by
        simp [dabTitles, List.filterMap_cons, ht]
      have hproc : wvProcess render fetch links n seen (a :: rest) =
          ((a :: (wvProcess render fetch links n seen rest).1,
            (wvProcess render fetch links n seen rest).2.1,
            (wvProcess render fetch links n seen rest).2.2)) := by
        simp [wvProcess, ht]
      rw [hproc, htitles]
      refine ⟨h1, h2, h3, ?_⟩
      have htags : dabTags links (a :: (wvProcess render fetch links n seen rest).1) =
          dabTags links (wvProcess render fetch links n seen rest).1 := by
        simp [dabTags, List.filterMap_cons, ht]
      rw [htags, h4]
    | some t =>
      by_cases hseen : t ∈ seen
      · rcases ih n seen with ⟨h1, h2, h3, h4⟩
        have htitles : dabTitles links (a :: rest) = t :: dabTitles links rest := by
          simp [dabTitles, List.filterMap_cons, ht]
        have hfirsts : newFirsts seen (t :: dabTitles links rest) =
            newFirsts seen (dabTitles links rest) := by
          simp [newFirsts, hseen]
        have hproc : wvProcess render fetch links n seen (a :: rest) =
            (({ a with cls := some "disambig" } ::
                (wvProcess render fetch links n seen rest).1,
              (wvProcess render fetch links n seen rest).2.1,
              (wvProcess render fetch links n seen rest).2.2)) := by
          simp [wvProcess, ht, hseen]
        rw [hproc, htitles, hfirsts]
        refine ⟨h1, h2, h3, ?_⟩
        have htags : dabTags links ({ a with cls := some "disambig" } ::
            (wvProcess render fetch links n seen rest).1) =
            (some "disambig", a.idAttr) ::
              dabTags links (wvProcess render fetch links n seen rest).1 := by
          simp [dabTags, List.filterMap_cons, anchorTitle_setCls, ht]
        rw [htags, List.length_cons, List.replicate_succ]
        simp [h4]
      · rcases ih (n + 1) (seen ++ [t]) with ⟨h1, h2, h3, h4⟩
        have htitles : dabTitles links (a :: rest) = t :: dabTitles links rest := by
          simp [dabTitles, List.filterMap_cons, ht]
        have hfirsts : newFirsts seen (t :: dabTitles links rest) =
            t :: newFirsts (seen ++ [t]) (dabTitles links rest) := by
          simp [newFirsts, hseen]
        have hproc : wvProcess render fetch links n seen (a :: rest) =
            ((markAnchor a n :: (wvProcess render fetch links (n + 1) (seen ++ [t]) rest).1,
              ⟨n, t, render n (fetch t)⟩ ::
                (wvProcess render fetch links (n + 1) (seen ++ [t]) rest).2.1,
              t :: (wvProcess render fetch links (n + 1) (seen ++ [t]) rest).2.2)) := by
          simp [wvProcess, ht, hseen]
        rw [hproc, htitles, hfirsts]
        refine ⟨?_, ?_, ?_, ?_⟩
        · simp [h1]
        · simp only [List.map_cons, h2, List.length_cons]
          rw [List.range'_succ]
        · simp [h3]
        · have htags : dabTags links (markAnchor a n ::
              (wvProcess render fetch links (n + 1) (seen ++ [t]) rest).1) =
              (some "disambig", some ("dab-" ++ Nat.repr n)) ::
                dabTags links (wvProcess render fetch links (n + 1) (seen ++ [t]) rest).1 := by
            simp [dabTags, List.filterMap_cons, anchorTitle_markAnchor, markAnchor_cls,
              markAnchor_id, ht]
          rw [htags, List.length_cons, List.replicate_succ]
          simp [h4]

/-- C5, counterexample.  With two anchors sharing the qualifying title
`Foo`, the `dab_mechanic.wikipedia` `process_links` records *two* DabItems
for the single distinct title (refuting "exactly one DabItem per distinct
qualifying title"), and the `web_view` `process_links` leaves the second
anchor without any id (refuting "second and later anchors … still receive
their own per-anchor … id tagging"). -/
theorem process_links_cex :
    ((wp_process_links (fun _ s => s) (fun _ => "H") ["Foo"]
        [⟨some "x", some "Foo", none, none⟩, ⟨some "y", some "Foo", none, none⟩]).2.1.map
          (fun d => d.title) = ["Foo", "Foo"]) ∧
    ¬ (((wp_process_links (fun _ s => s) (fun _ => "H") ["Foo"]
        [⟨some "x", some "Foo", none, none⟩, ⟨some "y", some "Foo", none, none⟩]).2.1.map
          (fun d => d.title)).Nodup) ∧
    ((wv_process_links (fun _ s => s) (fun _ => "H") ["Foo"]
        [⟨some "x", some "Foo", none, none⟩, ⟨some "y", some "Foo", none, none⟩]).1.map
          (fun a => a.idAttr) = [some "dab-0", none]) := by
  refine ⟨by decide, by decide, by decide⟩

/-- C5, amended.  In the `dab_mechanic.wikipedia` variant: one DabItem per
qualifying *anchor occurrence* (titles listed in document order, possibly
with repetitions), sequence numbers consecutive from 0 over occurrences
(hence unique), every qualifying anchor tagged with the class and its own id
`dab-{k}`, and the preview HTML fetched exactly once per distinct title in
first-occurrence order.  In the `web_view` variant: one DabItem per distinct
title in first-occurrence order (titles duplicate-free), sequence numbers
consecutive from 0 over distinct titles, one fetch per distinct title, and
every qualifying anchor (repeats included) given the CSS class. -/
theorem process_links_spec (render : Nat → String → String) (fetch : String → String)
    (links : List String) (anchors : List Anchor) :
    ((wp_process_links render fetch links anchors).2.1.map (fun d => d.num) =
        List.range (dabTitles links anchors).length) ∧
    ((wp_process_links render fetch links anchors).2.1.map (fun d => d.title) =
        dabTitles links anchors) ∧
    ((wp_process_links render fetch links anchors).2.2 =
        newFirsts [] (dabTitles links anchors)) ∧
    (dabTags links (wp_process_links render fetch links anchors).1 =
        (List.range (dabTitles links anchors).length).map
          (fun k => ((some "disambig" : Option String),
            (some ("dab-" ++ Nat.repr k) : Option String)))) ∧
    ((wv_process_links render fetch links anchors).2.1.map (fun d => d.title) =
        newFirsts [] (dabTitles links anchors)) ∧
    (((wv_process_links render fetch links anchors).2.1.map (fun d => d.title)).Nodup) ∧
    ((wv_process_links render fetch links anchors).2.1.map (fun d => d.num) =
        List.range (newFirsts [] (dabTitles links anchors)).length) ∧
    ((wv_process_links render fetch links anchors).2.2 =
        newFirsts [] (dabTitles links anchors)) ∧
    ((dabTags links (wv_process_links render fetch links anchors).1).map (fun x => x.1) =
        List.replicate (dabTitles links anchors).length (some "disambig")) := by
  rcases wpProcess_spec render fetch links anchors 0 [] with ⟨w1, w2, w3, w4⟩
  rcases wvProcess_spec render fetch links anchors 0 [] with ⟨v1, v2, v3, v4⟩
  have hre := List.range_eq_range' (dabTitles links anchors).length
  have hre2 := List.range_eq_range' (newFirsts [] (dabTitles links anchors)).length
  refine ⟨?_, w2, ?_, ?_, v1, ?_, ?_, v3, v4⟩
  · rw [hre]; exact w1
  · simpa using w3
  · rw [hre]; exact w4
  · show (List.map (fun d => d.title) (wvProcess render fetch links 0 [] anchors).2.1).Nodup
    rw [v1]
    exact (newFirsts_nodup _ _).1
  · rw [hre2]; exact v2

theorem processAnchors_missing (dab_num : Nat) (entries : List (String × Nat)) :
    ∀ anchors : List (Nat × String),
      (∃ p ∈ anchors, p.2 ≠ "" ∧ isFragment p.2 = true ∧
        idLookup entries (fragId p.2) = none) →
      processAnchors dab_num entries anchors = none := by
  intro anchors
  induction anchors with
  | nil =>
    rintro ⟨p, hp, _⟩
    simp at hp
  | cons q rest ih =>
    rintro ⟨p, hp, hne, hfrag, hmiss⟩
    rcases List.mem_cons.mp hp with rfl | hmem
    · obtain ⟨i, h⟩ := p
      simp only at hne hfrag hmiss
      simp [processAnchors, hne, hfrag, hmiss]
    · have hrec := ih ⟨p, hmem, hne, hfrag, hmiss⟩
      obtain ⟨i, h⟩ := q
      by_cases he : h = ""
      · simp [processAnchors, he, hrec]
      · by_cases hf : isFragment h
        · cases hl : idLookup entries (fragId h) with
          | none => simp [processAnchors, he, hf, hl]
          | some j => simp [processAnchors, he, hf, hl, hrec]
        · simp [processAnchors, he, hf, hrec]

/-- C9.  If some anchor of the (toc-stripped) fragment has an in-page
fragment `href` whose referenced id is not in the id lookup, `get_dab_html`
fails (the `KeyError` of `element_id_map[href[1:]]`) rather than skipping
the anchor or returning a fragment. -/
theorem get_dab_html_fails_on_missing_id (dab_num : Nat) (html : Html)
    (h : ∃ p ∈ anchorEntries (stripToc html), p.2 ≠ "" ∧ isFragment p.2 = true ∧
      idLookup (idEntries (stripToc html)) (fragId p.2) = none) :
    get_dab_html dab_num html = none := by
  unfold get_dab_html
  rw [processAnchors_missing dab_num _ _ h]

/-- Witness for C9: a fragment with one anchor `<a href="#nosuch">` and no
element with id `nosuch`. -/
theorem get_dab_html_fails_on_missing_id_witness :
    (∃ p ∈ anchorEntries (stripToc (Html.el "div" []
        (.cons (.el "a" [("href", "#nosuch")] .nil) .nil))),
      p.2 ≠ "" ∧ isFragment p.2 = true ∧
      idLookup (idEntries (stripToc (Html.el "div" []
        (.cons (.el "a" [("href", "#nosuch")] .nil) .nil)))) (fragId p.2) = none) ∧
    get_dab_html 7 (Html.el "div" []
        (.cons (.el "a" [("href", "#nosuch")] .nil) .nil)) = none := by
  have hex : ∃ p ∈ anchorEntries (stripToc (Html.el "div" []
      (.cons (.el "a" [("href", "#nosuch")] .nil) .nil))),
      p.2 ≠ "" ∧ isFragment p.2 = true ∧
      idLookup (idEntries (stripToc (Html.el "div" []
        (.cons (.el "a" [("href", "#nosuch")] .nil) .nil)))) (fragId p.2) = none := by
    refine ⟨(0, "#nosuch"), by decide, by decide, by decide, by decide⟩
  exact ⟨hex, get_dab_html_fails_on_missing_id 7 _ hex⟩

theorem processAnchors_id_shape (dab_num : Nat) (entries : List (String × Nat)) :
    ∀ (anchors : List (Nat × String))
      (r : List (Nat × String × Option String) × List (Nat × String)),
      processAnchors dab_num entries anchors = some r →
      ∀ v ∈ r.2.map (·.2), ∃ y : String, v = Nat.repr dab_num ++ y := by
  intro anchors
  induction anchors with
  | nil =>
    intro r hr v hv
    simp [processAnchors] at hr
    rw [← hr] at hv
    simp at hv
  | cons q rest ih =>
    intro r hr v hv
    obtain ⟨i, h⟩ := q
    simp only [processAnchors] at hr
    split at hr
    · exact ih r hr v hv
    · split at hr
      · split at hr
        · exact absurd hr (by simp)
        · rcases Option.map_eq_some'.mp hr with ⟨r0, hr0, rfl⟩
          simp only [List.map_cons, List.mem_cons] at hv
          rcases hv with rfl | hv
          · exact ⟨fragId h, rfl⟩
          · exact ih r0 hr0 v hv
      · rcases Option.map_eq_some'.mp hr with ⟨r0, hr0, rfl⟩
        exact ih r0 hr0 v (by simpa using hv)

theorem rewrittenIds_shape (n : Nat) (html : Html) :
    ∀ x ∈ rewrittenIds n html, ∃ y : String, x = Nat.repr n ++ y := by
  intro x hx
  unfold rewrittenIds at hx
  cases hr : processAnchors n (idEntries (stripToc html)) (anchorEntries (stripToc html)) with
  | none => rw [hr] at hx; simp at hx
  | some r =>
    rw [hr] at hx
    exact processAnchors_id_shape n _ _ r hr x hx

theorem string_append_left_inj {a b y1 y2 : String} (hlen : a.length = b.length)
    (h : a ++ y1 = b ++ y2) : a = b := by
  have hd : (a ++ y1).data = (b ++ y2).data := congrArg String.data h
  rw [String.data_append, String.data_append] at hd
  have hlen' : a.data.length = b.data.length := hlen
  exact String.ext (List.append_inj hd hlen').1

/-- C6, counterexample.  The claim asserts that for any two distinct
sequence numbers the rewritten id sets are disjoint.  But the new id is the
decimal number glued in front of the old id: with ids `23` and `3` both
referenced, preview 1 writes `{123, 13}` and preview 12 writes
`{1223, 123}` — both contain `123`. -/
theorem get_dab_html_disjoint_cex :
    rewrittenIds 1 (Html.el "div" []
      (.cons (.el "span" [("id", "23")] .nil)
        (.cons (.el "span" [("id", "3")] .nil)
          (.cons (.el "a" [("href", "#23")] .nil)
            (.cons (.el "a" [("href", "#3")] .nil) .nil))))) = ["123", "13"] ∧
    rewrittenIds 12 (Html.el "div" []
      (.cons (.el "span" [("id", "23")] .nil)
        (.cons (.el "span" [("id", "3")] .nil)
          (.cons (.el "a" [("href", "#23")] .nil)
            (.cons (.el "a" [("href", "#3")] .nil) .nil))))) = ["1223", "123"] ∧
    (get_dab_html 1 (Html.el "div" []
      (.cons (.el "span" [("id", "23")] .nil)
        (.cons (.el "span" [("id", "3")] .nil)
          (.cons (.el "a" [("href", "#23")] .nil)
            (.cons (.el "a" [("href", "#3")] .nil) .nil)))))).isSome = true ∧
    (get_dab_html 12 (Html.el "div" []
      (.cons (.el "span" [("id", "23")] .nil)
        (.cons (.el "span" [("id", "3")] .nil)
          (.cons (.el "a" [("href", "#23")] .nil)
            (.cons (.el "a" [("href", "#3")] .nil) .nil)))))).isSome = true ∧
    "123" ∈ rewrittenIds 1 (Html.el "div" []
      (.cons (.el "span" [("id", "23")] .nil)
        (.cons (.el "span" [("id", "3")] .nil)
          (.cons (.el "a" [("href", "#23")] .nil)
            (.cons (.el "a" [("href", "#3")] .nil) .nil))))) ∧
    "123" ∈ rewrittenIds 12 (Html.el "div" []
      (.cons (.el "span" [("id", "23")] .nil)
        (.cons (.el "span" [("id", "3")] .nil)
          (.cons (.el "a" [("href", "#23")] .nil)
            (.cons (.el "a" [("href", "#3")] .nil) .nil))))) := by
  refine ⟨by decide, by decide, by decide, by decide, by decide, by decide⟩

/-- C6, amended.  `get_dab_html` is a pure function of its two arguments
(in this embedding it is literally a function, so two calls on identical
arguments agree definitionally), and the rewritten id sets of two renders of
the same HTML are disjoint whenever the two sequence numbers have distinct
decimal representations of equal length — in particular for any two distinct
numbers below 10.  (Distinct numbers with representations of different
length can collide, as the counterexample shows.) -/
theorem get_dab_html_pure_and_disjoint :
    (∀ (n : Nat) (html : Html), get_dab_html n html = get_dab_html n html) ∧
    (∀ (n1 n2 : Nat) (html : Html),
      (Nat.repr n1).length = (Nat.repr n2).length → Nat.repr n1 ≠ Nat.repr n2 →
      ∀ x ∈ rewrittenIds n1 html, x ∉ rewrittenIds n2 html) ∧
    (∀ (n1 n2 : Nat) (html : Html), n1 < 10 → n2 < 10 → n1 ≠ n2 →
      ∀ x ∈ rewrittenIds n1 html, x ∉ rewrittenIds n2 html) := by
  have main : ∀ (n1 n2 : Nat) (html : Html),
      (Nat.repr n1).length = (Nat.repr n2).length → Nat.repr n1 ≠ Nat.repr n2 →
      ∀ x ∈ rewrittenIds n1 html, x ∉ rewrittenIds n2 html := by
    intro n1 n2 html hlen hne x hx1 hx2
    rcases rewrittenIds_shape n1 html x hx1 with ⟨y1, hy1⟩
    rcases rewrittenIds_shape n2 html x hx2 with ⟨y2, hy2⟩
    have heq : Nat.repr n1 ++ y1 = Nat.repr n2 ++ y2 := by rw [← hy1, ← hy2]
    exact hne (string_append_left_inj hlen heq)
  have hlen1 : ∀ a : Nat, a < 10 → (Nat.repr a).length = 1 := by decide
  have hrne : ∀ a : Nat, a < 10 → ∀ b : Nat, b < 10 → a ≠ b →
      Nat.repr a ≠ Nat.repr b := by decide
  refine ⟨fun n html => rfl, main, ?_⟩
  intro n1 n2 html h1 h2 hne
  exact main n1 n2 html (by rw [hlen1 n1 h1, hlen1 n2 h2]) (hrne n1 h1 n2 h2 hne)

/-- Witness for the amended C6 at concrete inputs: previews 0 and 1 of the
same fragment have disjoint rewritten ids. -/
theorem get_dab_html_pure_and_disjoint_witness :
    (0 : Nat) < 10 ∧ (1 : Nat) < 10 ∧ (0 : Nat) ≠ 1 ∧
    "023" ∈ rewrittenIds 0 (Html.el "div" []
      (.cons (.el "span" [("id", "23")] .nil)
        (.cons (.el "a" [("href", "#23")] .nil) .nil))) ∧
    "023" ∉ rewrittenIds 1 (Html.el "div" []
      (.cons (.el "span" [("id", "23")] .nil)
        (.cons (.el "a" [("href", "#23")] .nil) .nil))) :=
  ⟨by decide, by decide, by decide, by decide,
    get_dab_html_pure_and_disjoint.2.2 0 1 _ (by decide) (by decide) (by decide)
      "023" (by decide)⟩
